import Mathlib

/-!
# snyk2nvd: language filter, stream decoder and fetch adapter

A shallow embedding of `cmd/snyk2nvd/snyk2nvd.go`.

Conventions of the embedding.

* A Go `map[string]V` is `GoMap V`: `none` is the nil map, `some kvs` an allocated
  map holding the entries `kvs`.  Go leaves the order of `range` over a map
  unspecified, so every function that ranges over a map takes the order chosen by
  the runtime as an argument `order`, and the theorems hold for every `order` that
  is a permutation of the entries.
* A Go pointer `*T` is `Option T`, `none` being the nil pointer.  A nil pointer
  dereference is the outcome `none` of a function returning `Option`, or the
  completion `Completion.panicked`.
* A Go `error` is `Option String`: `none` is the nil error, `some msg` an error
  whose `Error()` text is `msg`.
* A channel send is recorded in the list of values sent, in the order sent.
-/

namespace Snyk2nvd

/-! ## Strings (the parts of package `strings` this file uses) -/

/-- Comma splitting of a character sequence: the pieces between the commas, so
that a sequence with `n` commas has `n + 1` pieces and the empty sequence has the
single empty piece. -/
def splitChars : List Char → List (List Char)
  | [] => [[]]
  | c :: cs =>
    if c = ',' then [] :: splitChars cs
    else
      match splitChars cs with
      | [] => [[c]]
      | t :: ts => (c :: t) :: ts

/-- The call `strings.Split(s, ",")`. -/
def Split (s : String) : List String :=
  (splitChars s.data).map String.mk

/-- The call `strings.Join(elems, sep)`. -/
def Join : List String → String → String
  | [], _ => ""
  | [a], _ => a
  | a :: b :: rest, sep => a ++ sep ++ Join (b :: rest) sep

/-! ## Go maps -/

/-- A Go `map[string]V`; `none` is the nil map. -/
abbrev GoMap (V : Type) := Option (List (String × V))

/-- The entries of a map; a nil map has none. -/
def GoMap.entries {V : Type} (m : GoMap V) : List (String × V) :=
  m.getD []

/-- The builtin `len(m)`. -/
def GoMap.len {V : Type} (m : GoMap V) : Nat :=
  m.entries.length

/-- The keys present in a map. -/
def GoMap.keys {V : Type} (m : GoMap V) : List String :=
  m.entries.map Prod.fst

/-- The index expression `m[k]` over the entries, with `zero` for a missing key. -/
def lookupD {V : Type} (zero : V) (k : String) : List (String × V) → V
  | [] => zero
  | (k', v) :: rest => if k' = k then v else lookupD zero k rest

/-- The index expression `m[k]`; a missing key, or a nil map, gives `zero`. -/
def GoMap.index {V : Type} (zero : V) (m : GoMap V) (k : String) : V :=
  lookupD zero k m.entries

/-- The assignment `m[k] = v` over the entries: an existing key keeps its place and
takes the new value, a new key is added. -/
def assignEntries {V : Type} (k : String) (v : V) : List (String × V) → List (String × V)
  | [] => [(k, v)]
  | (k', v') :: rest =>
    if k' = k then (k, v) :: rest else (k', v') :: assignEntries k v rest

/-! ## The advisory -/

/-- Modelled from the spec: `schema.Advisory` is declared in package
`providers/snyk/schema`, which is not part of this file.  This file reads only the
field `Language`; the other fields are carried along untouched in `rest`. -/
structure Advisory where
  Language : String
  rest : String
  deriving DecidableEq, Repr

/-! ## The language filter -/

/-- The type `languageFilter`, a `map[string]bool`. -/
abbrev languageFilter := GoMap Bool

/-- The loop `for _, v := range strings.Split(val, ",") { if v != "" { (*lf)[v] = true } }`
over the entries of the allocated map. -/
def setTokens : List String → List (String × Bool) → List (String × Bool)
  | [], m => m
  | v :: vs, m => if v ≠ "" then setTokens vs (assignEntries v true m) else setTokens vs m

/-- The method `(*languageFilter).Set`, for a non-nil receiver: the filter after the
call and the error returned. -/
def Set (lf : languageFilter) (val : String) : languageFilter × Option String :=
  if val = "" then (lf, none)
  else
    let m : List (String × Bool) :=
      match lf with
      | none => []
      | some kvs => kvs
    (some (setTokens (Split val) m), none)

/-- The method `(*languageFilter).String`, for a non-nil receiver; `order` is the
order in which `range` visits the entries. -/
def languageFilter.String (order : List (String × Bool) → List (String × Bool))
    (lf : languageFilter) : String :=
  Join ((order lf.entries).map Prod.fst) ","

/-- The method `(*languageFilter).accepts`.  The receiver and the advisory are
pointers; `none` as a result is the nil dereference of `adv.Language`, reached only
after `lf == nil` and `len(*lf) == 0` were both false. -/
def accepts (lf : Option languageFilter) (adv : Option Advisory) : Option Bool :=
  match lf with
  | none => some true
  | some m =>
    if m.len = 0 then some true
    else
      match adv with
      | none => none
      | some a => some (m.index false a.Language)

/-- A filter after a sequence of `Set` calls. -/
def SetAll (lf : languageFilter) (vals : List String) : languageFilter :=
  vals.foldl (fun f v => (Set f v).1) lf

/-- What holds of the entries of a filter that only `Set` has written: every value
is `true`, no key occurs twice, and every key is a non-empty string without a
comma. -/
structure SetWritten (m : List (String × Bool)) : Prop where
  allTrue : ∀ p ∈ m, p.2 = true
  nodup : (m.map Prod.fst).Nodup
  tokens : ∀ k ∈ m.map Prod.fst, k ≠ "" ∧ ',' ∉ k.data

/-! ## The stream decoder -/

/-- How a call ended: it returned an error value (possibly nil), or it panicked on a
nil pointer dereference. -/
inductive Completion where
  | returned (err : Option String)
  | panicked
  deriving DecidableEq, Repr

/-- What a call of `Read` did: the values sent on the channel `c`, in the order
sent, and how the call ended. -/
structure ReadOutcome where
  sent : List (Option Advisory)
  completion : Completion
  deriving DecidableEq, Repr

/-- The loop `for _, vuln := range vulns { if lf.accepts(vuln) { c <- vuln } }` over
the entries in the order visited, followed by `return nil`; `sent` holds what was
sent so far.  The receiver of `accepts` is the address of the global `lf`. -/
def readLoop (lf : languageFilter) :
    List (String × Option Advisory) → List (Option Advisory) → ReadOutcome
  | [], sent => ⟨sent, Completion.returned none⟩
  | (_, vuln) :: rest, sent =>
    match accepts (some lf) vuln with
    | none => ⟨sent, Completion.panicked⟩
    | some true => readLoop lf rest (sent ++ [vuln])
    | some false => readLoop lf rest sent

/-- The function `Read`.  The stream `r` is an `io.Reader`, of any type `R`.  The
call `json.NewDecoder(r).Decode(&vulns)` belongs to the standard library and is the
argument `decode`: for a stream it gives the decode error text or the decoded map,
the nil map included.  The argument `order` is the order in which `range` visits
the map, and `lf` the global filter. -/
def Read {R : Type} (decode : R → Except String (GoMap (Option Advisory)))
    (order : List (String × Option Advisory) → List (String × Option Advisory))
    (lf : languageFilter) (r : R) : ReadOutcome :=
  match decode r with
  | Except.error err => ⟨[], Completion.returned (some ("can't decode into vulns: " ++ err))⟩
  | Except.ok vulns => readLoop lf (order vulns.entries) []

/-- Streams on which the result of `json.NewDecoder(r).Decode(&vulns)` is on
record: an object of two advisories tagged `go` and `python`, an object of one
advisory tagged `go`, an object whose only value is `null`, the document `null`,
the text `not-json`, and an object cut off after its first colon. -/
inductive SampleInput where
  | twoAdvisories
  | oneAdvisory
  | nullValue
  | nullDocument
  | notJson
  | truncated
  deriving DecidableEq, Repr

/-- The bytes of a recorded stream. -/
def SampleInput.text : SampleInput → String
  | SampleInput.twoAdvisories =>
    "\x7b\"a\":\x7b\"language\":\"go\"\x7d,\"b\":\x7b\"language\":\"python\"\x7d\x7d"
  | SampleInput.oneAdvisory => "\x7b\"a\":\x7b\"language\":\"go\"\x7d\x7d"
  | SampleInput.nullValue => "\x7b\"a\":null\x7d"
  | SampleInput.nullDocument => "null"
  | SampleInput.notJson => "not-json"
  | SampleInput.truncated => "\x7b\"a\":"

/-- The decoder on the recorded streams.  A value `null` decodes to a nil
`*Advisory`; the document `null` is no object, yet it decodes without error and
leaves the nil map; `not-json` is a syntax error at its second byte and the cut-off
object an unexpected end of input. -/
def decodeSample : SampleInput → Except String (GoMap (Option Advisory))
  | SampleInput.twoAdvisories =>
    Except.ok (some [("a", some ⟨"go", ""⟩), ("b", some ⟨"python", ""⟩)])
  | SampleInput.oneAdvisory => Except.ok (some [("a", some ⟨"go", ""⟩)])
  | SampleInput.nullValue => Except.ok (some [("a", none)])
  | SampleInput.nullDocument => Except.ok none
  | SampleInput.notJson =>
    Except.error "invalid character 'o' in literal null (expecting 'u')"
  | SampleInput.truncated => Except.error "unexpected EOF"

/-! ## The filter stage -/

/-- A receive-only channel of advisories as its producer will have used it: `none`
is the nil channel, on which a receive blocks forever; `some xs` delivers `xs` in
this order and is then closed. -/
abbrev AdvisoryChan := Option (List (Option Advisory))

/-- The goroutine started by `filter`, together with the channel `output` it feeds:
what is still to be received from `ch`, what was sent on `output` so far, whether
`output` was closed, and whether the goroutine panicked. -/
structure FilterTask where
  ch : AdvisoryChan
  output : List (Option Advisory)
  closed : Bool
  panicked : Bool
  deriving DecidableEq, Repr

/-- The method `(*languageFilter).filter`: it makes `output`, starts the goroutine
and returns at once. -/
def filter (ch : AdvisoryChan) : FilterTask :=
  ⟨ch, [], false, false⟩

/-- One turn of the goroutine `for adv := range ch { if lf.accepts(adv) { output <- adv } }`
with its deferred `close(output)`.  A finished goroutine stays as it is; on a nil
channel the receive never returns; on an exhausted channel the loop ends and the
deferred close runs; a panic also runs the deferred close. -/
def filterStep (lf : languageFilter) (t : FilterTask) : FilterTask :=
  if t.closed then t
  else
    match t.ch with
    | none => t
    | some [] => { t with closed := true }
    | some (adv :: rest) =>
      match accepts (some lf) adv with
      | none => { t with ch := some rest, closed := true, panicked := true }
      | some true => { t with ch := some rest, output := t.output ++ [adv] }
      | some false => { t with ch := some rest }

/-- The goroutine after `n` turns. -/
def filterRun (lf : languageFilter) : Nat → FilterTask → FilterTask
  | 0, t => t
  | n + 1, t => filterRun lf n (filterStep lf t)

/-! ## The fetch adapter -/

/-- The value `api.NewClient(baseURL, userAgent, consumerID, secret)`. -/
structure Client where
  baseURL : String
  userAgent : String
  consumerID : String
  secret : String
  deriving DecidableEq, Repr

/-- A call into package `providers/snyk/api`. -/
inductive ApiCall where
  | NewClient (baseURL userAgent consumerID secret : String)
  | FetchAllVulnerabilities (client : Client) (since : Int)
  deriving DecidableEq, Repr

/-- What a call of `FetchSince` did: the channel returned (`none` is the nil
channel, otherwise the filter stage feeding it), the error returned, and the calls
made into the API package, in order. -/
structure FetchOutcome where
  channel : Option FilterTask
  err : Option String
  calls : List ApiCall
  deriving DecidableEq, Repr

/-- The call `os.Getenv(key)` in an environment `env`: the value of the variable, or
the empty string when it is not set. -/
def Getenv (env : String → Option String) (key : String) : String :=
  (env key).getD ""

/-- The function `FetchSince`.  The environment is `env`; the method
`FetchAllVulnerabilities` of the API client, which is outside this file, is the
argument `fetchAll`.  The goroutine of the returned stage reads the global filter
when it runs, see `filterRun`. -/
def FetchSince (env : String → Option String)
    (fetchAll : Client → Int → AdvisoryChan × Option String)
    (baseURL userAgent : String) (since : Int) : FetchOutcome :=
  let consumerID := Getenv env "SNYK_ID"
  if consumerID = "" then ⟨none, some "Please set SNYK_ID in environment", []⟩
  else
    let secret := Getenv env "SNYK_READONLY_KEY"
    if secret = "" then ⟨none, some "Please set SNYK_READONLY_KEY in environment", []⟩
    else
      let client : Client := ⟨baseURL, userAgent, consumerID, secret⟩
      let r := fetchAll client since
      ⟨some (filter r.1), r.2,
        [ApiCall.NewClient baseURL userAgent consumerID secret,
         ApiCall.FetchAllVulnerabilities client since]⟩

/-! ## Lemmas on splitting and joining -/

theorem splitChars_ne_nil (cs : List Char) : splitChars cs ≠ [] := by
  cases cs with
  | nil => simp [splitChars]
  | cons c cs =>
    simp only [splitChars]
    split
    · simp
    · split <;> simp

theorem splitChars_append_comma (xs ys : List Char) :
    splitChars (xs ++ ',' :: ys) = splitChars xs ++ splitChars ys := by
  induction xs with
  | nil => simp [splitChars]
  | cons c cs ih =>
    by_cases hc : c = ','
    · simp [splitChars, hc, ih]
    · rw [List.cons_append]
      simp only [splitChars, hc, if_false]
      rw [ih]
      cases h : splitChars cs with
      | nil => exact absurd h (splitChars_ne_nil cs)
      | cons t ts => simp

theorem splitChars_of_no_comma (t : List Char) (h : ',' ∉ t) : splitChars t = [t] := by
  induction t with
  | nil => simp [splitChars]
  | cons c cs ih =>
    have hc : c ≠ ',' := fun e => h (by simp [e])
    have hcs : ',' ∉ cs := fun e => h (by simp [e])
    simp [splitChars, hc, ih hcs]

theorem splitChars_no_comma (cs : List Char) : ∀ t ∈ splitChars cs, ',' ∉ t := by
  induction cs with
  | nil => simp [splitChars]
  | cons c cs ih =>
    by_cases hc : c = ','
    · intro t ht
      simp only [splitChars, hc, if_true, List.mem_cons] at ht
      rcases ht with rfl | ht
      · simp
      · exact ih t ht
    · intro t ht
      simp only [splitChars, hc, if_false] at ht
      cases h : splitChars cs with
      | nil => exact absurd h (splitChars_ne_nil cs)
      | cons u us =>
        rw [h] at ht ih
        simp only [List.mem_cons] at ht
        rcases ht with rfl | ht
        · have hu := ih u (by simp)
          intro hmem
          simp only [List.mem_cons] at hmem
          rcases hmem with e | e
          · exact hc e.symm
          · exact hu e
        · exact ih t (by simp [ht])

theorem Split_append_comma (x y : String) :
    Split (x ++ "," ++ y) = Split x ++ Split y := by
  have h : (x ++ "," ++ y).data = x.data ++ ',' :: y.data := by
    simp [String.data_append]
  simp [Split, h, splitChars_append_comma]

theorem Split_no_comma (val : String) : ∀ t ∈ Split val, ',' ∉ t.data := by
  intro t ht
  simp only [Split, List.mem_map] at ht
  obtain ⟨cs, hcs, rfl⟩ := ht
  exact splitChars_no_comma _ cs hcs

theorem Join_cons_cons_data (a b : String) (rest : List String) :
    (Join (a :: b :: rest) ",").data = a.data ++ ',' :: (Join (b :: rest) ",").data := by
  simp [Join, String.data_append]

theorem Split_Join (toks : List String) (hne : toks ≠ [])
    (hc : ∀ t ∈ toks, ',' ∉ t.data) : Split (Join toks ",") = toks := by
  induction toks with
  | nil => exact absurd rfl hne
  | cons a rest ih =>
    cases rest with
    | nil =>
      have ha := hc a (by simp)
      simp [Split, Join, splitChars_of_no_comma _ ha]
    | cons b rest =>
      have ha := hc a (by simp)
      have ih2 := ih (by simp) (fun t ht => hc t (by simp [ht]))
      simp only [Split] at ih2 ⊢
      rw [Join_cons_cons_data, splitChars_append_comma, List.map_append, ih2,
        splitChars_of_no_comma _ ha]
      simp

/-! ## Lemmas on maps -/

theorem mem_keys_assignEntries {V : Type} (k k' : String) (v : V) (m : List (String × V)) :
    k' ∈ (assignEntries k v m).map Prod.fst ↔ k' = k ∨ k' ∈ m.map Prod.fst := by
  induction m with
  | nil => simp [assignEntries]
  | cons p rest ih =>
    obtain ⟨k0, v0⟩ := p
    by_cases h : k0 = k
    · subst h
      simp [assignEntries]
    · simp only [assignEntries, h, if_false, List.map_cons, List.mem_cons, ih]
      tauto

theorem lookupD_assignEntries {V : Type} (z : V) (k k' : String) (v : V)
    (m : List (String × V)) :
    lookupD z k' (assignEntries k v m) = if k = k' then v else lookupD z k' m := by
  induction m with
  | nil => simp [assignEntries, lookupD]
  | cons p rest ih =>
    obtain ⟨k0, v0⟩ := p
    by_cases h : k0 = k
    · subst h
      by_cases h2 : k0 = k' <;> simp [assignEntries, lookupD, h2]
    · by_cases h2 : k0 = k'
      · subst h2
        have h3 : ¬ k = k0 := fun e => h e.symm
        simp [assignEntries, lookupD, h, h3]
      · simp [assignEntries, lookupD, h, h2, ih]

theorem nodup_keys_assignEntries {V : Type} (k : String) (v : V) (m : List (String × V))
    (hm : (m.map Prod.fst).Nodup) : ((assignEntries k v m).map Prod.fst).Nodup := by
  induction m with
  | nil => simp [assignEntries]
  | cons p rest ih =>
    obtain ⟨k0, v0⟩ := p
    simp only [List.map_cons, List.nodup_cons] at hm
    by_cases h : k0 = k
    · subst h
      simpa [assignEntries] using hm
    · simp only [assignEntries, h, if_false, List.map_cons, List.nodup_cons]
      refine ⟨?_, ih hm.2⟩
      rw [mem_keys_assignEntries]
      rintro (e | e)
      · exact h e
      · exact hm.1 e

theorem length_assignEntries_pos {V : Type} (k : String) (v : V) (m : List (String × V)) :
    0 < (assignEntries k v m).length := by
  cases m with
  | nil => simp [assignEntries]
  | cons p rest =>
    obtain ⟨k0, v0⟩ := p
    by_cases h : k0 = k <;> simp [assignEntries, h]

theorem mem_keys_setTokens (toks : List String) (m : List (String × Bool)) (k : String) :
    k ∈ (setTokens toks m).map Prod.fst ↔ k ∈ m.map Prod.fst ∨ (k ∈ toks ∧ k ≠ "") := by
  induction toks generalizing m with
  | nil => simp [setTokens]
  | cons t ts ih =>
    by_cases ht : t = ""
    · subst ht
      simp only [setTokens, ne_eq, not_true_eq_false, if_false, ih, List.mem_cons]
      constructor
      · rintro (h | ⟨h1, h2⟩)
        · exact Or.inl h
        · exact Or.inr ⟨Or.inr h1, h2⟩
      · rintro (h | ⟨h1 | h1, h2⟩)
        · exact Or.inl h
        · exact absurd h1 h2
        · exact Or.inr ⟨h1, h2⟩
    · simp only [setTokens, ne_eq, ht, not_false_eq_true, if_true, ih,
        mem_keys_assignEntries, List.mem_cons]
      constructor
      · rintro ((h | h) | ⟨h1, h2⟩)
        · exact Or.inr ⟨Or.inl h, h ▸ ht⟩
        · exact Or.inl h
        · exact Or.inr ⟨Or.inr h1, h2⟩
      · rintro (h | ⟨h1 | h1, h2⟩)
        · exact Or.inl (Or.inr h)
        · exact Or.inl (Or.inl h1)
        · exact Or.inr ⟨h1, h2⟩

theorem lookupD_setTokens (toks : List String) (m : List (String × Bool)) (k : String) :
    lookupD false k (setTokens toks m) = true ↔
      lookupD false k m = true ∨ (k ∈ toks ∧ k ≠ "") := by
  induction toks generalizing m with
  | nil => simp [setTokens]
  | cons t ts ih =>
    by_cases ht : t = ""
    · subst ht
      simp only [setTokens, ne_eq, not_true_eq_false, if_false, ih, List.mem_cons]
      constructor
      · rintro (h | ⟨h1, h2⟩)
        · exact Or.inl h
        · exact Or.inr ⟨Or.inr h1, h2⟩
      · rintro (h | ⟨h1 | h1, h2⟩)
        · exact Or.inl h
        · exact absurd h1 h2
        · exact Or.inr ⟨h1, h2⟩
    · simp only [setTokens, ne_eq, ht, not_false_eq_true, if_true, ih,
        lookupD_assignEntries, List.mem_cons]
      by_cases hk : t = k
      · subst hk
        simp [ht]
      · have hk2 : ¬ k = t := fun e => hk e.symm
        simp [hk, hk2]

theorem mem_assignEntries {V : Type} (k : String) (v : V) (m : List (String × V))
    (p : String × V) (hp : p ∈ assignEntries k v m) : p = (k, v) ∨ p ∈ m := by
  induction m with
  | nil => simpa [assignEntries] using hp
  | cons q rest ih =>
    obtain ⟨k0, v0⟩ := q
    by_cases h : k0 = k
    · simp only [assignEntries, h, if_true, List.mem_cons] at hp
      rcases hp with e | e
      · exact Or.inl e
      · exact Or.inr (by simp [e])
    · simp only [assignEntries, h, if_false, List.mem_cons] at hp
      rcases hp with e | e
      · exact Or.inr (by simp [e])
      · rcases ih e with e2 | e2
        · exact Or.inl e2
        · exact Or.inr (by simp [e2])

theorem setWritten_nil : SetWritten [] :=
  ⟨by simp, by simp, by simp⟩

theorem setWritten_assign {m : List (String × Bool)} (hm : SetWritten m) (v : String)
    (hv : v ≠ "") (hc : ',' ∉ v.data) : SetWritten (assignEntries v true m) := by
  refine ⟨?_, nodup_keys_assignEntries v true m hm.nodup, ?_⟩
  · intro p hp
    rcases mem_assignEntries v true m p hp with e | e
    · simp [e]
    · exact hm.allTrue p e
  · intro k hk
    rw [mem_keys_assignEntries] at hk
    rcases hk with e | e
    · subst e
      exact ⟨hv, hc⟩
    · exact hm.tokens k e

theorem setWritten_setTokens {m : List (String × Bool)} (hm : SetWritten m)
    (toks : List String) (hc : ∀ t ∈ toks, ',' ∉ t.data) :
    SetWritten (setTokens toks m) := by
  induction toks generalizing m with
  | nil => simpa [Snyk2nvd.setTokens] using hm
  | cons t ts ih =>
    have hts : ∀ u ∈ ts, ',' ∉ u.data := fun u hu => hc u (by simp [hu])
    by_cases ht : t = ""
    · simpa [Snyk2nvd.setTokens, ht] using ih hm hts
    · simpa [Snyk2nvd.setTokens, ht] using ih (setWritten_assign hm t ht (hc t (by simp))) hts

theorem setWritten_Set {lf : languageFilter} (hm : SetWritten lf.entries) (val : String) :
    SetWritten (Set lf val).1.entries := by
  by_cases hv : val = ""
  · simpa [Snyk2nvd.Set, hv] using hm
  · cases lf with
    | none =>
      simpa [Snyk2nvd.Set, hv, GoMap.entries] using
        setWritten_setTokens setWritten_nil (Split val) (Split_no_comma val)
    | some kvs =>
      simpa [Snyk2nvd.Set, hv, GoMap.entries] using
        setWritten_setTokens hm (Split val) (Split_no_comma val)

theorem setWritten_SetAll {lf : languageFilter} (hm : SetWritten lf.entries)
    (vals : List String) : SetWritten (SetAll lf vals).entries := by
  induction vals generalizing lf with
  | nil => simpa [Snyk2nvd.SetAll] using hm
  | cons v vs ih => simpa [Snyk2nvd.SetAll] using ih (setWritten_Set hm v)

theorem setWritten_built (vals : List String) : SetWritten (SetAll none vals).entries :=
  @setWritten_SetAll none setWritten_nil vals

theorem lookupD_eq_true_iff_mem_keys (m : List (String × Bool))
    (hm : ∀ p ∈ m, p.2 = true) (k : String) :
    lookupD false k m = true ↔ k ∈ m.map Prod.fst := by
  induction m with
  | nil => simp [lookupD]
  | cons p rest ih =>
    obtain ⟨k0, v0⟩ := p
    have hv : v0 = true := hm (k0, v0) (by simp)
    have ih2 := ih (fun q hq => hm q (by simp [hq]))
    by_cases h : k0 = k
    · simp [lookupD, h, hv]
    · have h2 : ¬ k = k0 := fun e => h e.symm
      simp [lookupD, h, h2, ih2]

theorem Set_err (lf : languageFilter) (val : String) : (Set lf val).2 = none := by
  unfold Snyk2nvd.Set
  split <;> rfl

theorem mem_keys_Set (lf : languageFilter) (val k : String) :
    k ∈ (Set lf val).1.keys ↔ k ∈ lf.keys ∨ (k ∈ Split val ∧ k ≠ "") := by
  by_cases hv : val = ""
  · subst hv
    have hs : Split "" = [""] := by decide
    simp only [Snyk2nvd.Set, if_true, hs, List.mem_singleton]
    constructor
    · exact Or.inl
    · rintro (h | ⟨h1, h2⟩)
      · exact h
      · exact absurd h1 h2
  · cases lf with
    | none =>
      simp only [Snyk2nvd.Set, hv, if_false, GoMap.keys, GoMap.entries, Option.getD]
      simpa using mem_keys_setTokens (Split val) [] k
    | some kvs =>
      simp only [Snyk2nvd.Set, hv, if_false, GoMap.keys, GoMap.entries, Option.getD]
      exact mem_keys_setTokens (Split val) kvs k

theorem index_Set (lf : languageFilter) (val k : String) :
    (Set lf val).1.index false k = true ↔
      lf.index false k = true ∨ (k ∈ Split val ∧ k ≠ "") := by
  by_cases hv : val = ""
  · subst hv
    have hs : Split "" = [""] := by decide
    simp only [Snyk2nvd.Set, if_true, hs, List.mem_singleton]
    constructor
    · exact Or.inl
    · rintro (h | ⟨h1, h2⟩)
      · exact h
      · exact absurd h1 h2
  · cases lf with
    | none =>
      simp [Snyk2nvd.Set, hv, GoMap.index, GoMap.entries, lookupD_setTokens, lookupD]
    | some kvs =>
      simp [Snyk2nvd.Set, hv, GoMap.index, GoMap.entries, lookupD_setTokens]

theorem len_eq_zero_iff {V : Type} (m : GoMap V) : m.len = 0 ↔ ∀ k, k ∉ m.keys := by
  simp only [GoMap.len, GoMap.keys]
  cases m.entries with
  | nil => simp
  | cons p rest =>
    simp only [List.length_cons, Nat.add_one_ne_zero, List.map_cons, List.mem_cons, not_or,
      false_iff, not_forall]
    exact ⟨p.1, fun h => h.1 rfl⟩

theorem keys_eq_nil_iff {V : Type} (m : GoMap V) : m.keys = [] ↔ m.len = 0 := by
  simp [GoMap.len, GoMap.keys]

theorem accepts_congr (F G : languageFilter) (hk : ∀ k, k ∈ F.keys ↔ k ∈ G.keys)
    (hi : ∀ k, F.index false k = true ↔ G.index false k = true) (adv : Option Advisory) :
    accepts (some F) adv = accepts (some G) adv := by
  have hlen : F.len = 0 ↔ G.len = 0 := by
    rw [len_eq_zero_iff, len_eq_zero_iff]
    exact forall_congr' fun k => not_congr (hk k)
  by_cases hF : F.len = 0
  · simp [accepts, hF, hlen.1 hF]
  · have hG : ¬ G.len = 0 := fun e => hF (hlen.2 e)
    cases adv with
    | none => simp [accepts, hF, hG]
    | some a =>
      simp only [accepts, hF, hG, if_false, Option.some.injEq]
      rw [Bool.eq_iff_iff]
      exact hi a.Language

theorem accepts_some_of_setWritten (F : languageFilter) (hF : SetWritten F.entries)
    (A : Advisory) :
    accepts (some F) (some A) = some (decide (F.keys = [] ∨ A.Language ∈ F.keys)) := by
  by_cases h0 : F.len = 0
  · simp [accepts, h0, (keys_eq_nil_iff F).2 h0]
  · have hk : ¬ F.keys = [] := fun e => h0 ((keys_eq_nil_iff F).1 e)
    have hl := lookupD_eq_true_iff_mem_keys F.entries hF.allTrue A.Language
    simp only [accepts, h0, if_false, hk, false_or, Option.some.injEq, GoMap.index]
    rw [Bool.eq_iff_iff, hl]
    simp [GoMap.keys]

/-! ## The language filter: `accepts` and `Set` -/

/-- C1: for a filter that is nil, allocated but empty, or built from nil by `Set`
calls, and a non-nil advisory, `accepts` answers true exactly when the filter is nil
(as a pointer or as a map), has no members, or holds the advisory's language tag;
it answers false exactly when the filter has members and the tag is not among them.
A nil filter and an empty allocated filter accept every advisory. -/
theorem accepts_iff (lf : Option languageFilter) (A : Advisory)
    (hF : ∀ F, lf = some F → F = none ∨ F = some [] ∨ ∃ vals, F = SetAll none vals) :
    (accepts lf (some A) = some true ↔
      lf = none ∨ ∃ F, lf = some F ∧ (F = none ∨ F.keys = [] ∨ A.Language ∈ F.keys)) ∧
    (accepts lf (some A) = some false ↔
      ∃ F, lf = some F ∧ F.keys ≠ [] ∧ A.Language ∉ F.keys) ∧
    (∀ adv, accepts none adv = some true) ∧
    (∀ adv, accepts (some none) adv = some true) ∧
    (∀ adv, accepts (some (some [])) adv = some true) := by
  refine ⟨?_, ?_, fun _ => rfl, fun _ => rfl, fun _ => rfl⟩
  · cases lf with
    | none => simp [accepts]
    | some F =>
      have hw : SetWritten F.entries := by
        rcases hF F rfl with rfl | rfl | ⟨vals, rfl⟩
        · exact setWritten_nil
        · exact setWritten_nil
        · exact setWritten_built vals
      rw [accepts_some_of_setWritten F hw A]
      simp only [Option.some.injEq, decide_eq_true_eq]
      constructor
      · intro h
        exact Or.inr ⟨F, rfl, Or.inr h⟩
      · rintro (h | ⟨G, hG, h⟩)
        · exact absurd h (by simp)
        · cases hG
          rcases h with rfl | h
          · exact Or.inl rfl
          · exact h
  · cases lf with
    | none => simp [accepts]
    | some F =>
      have hw : SetWritten F.entries := by
        rcases hF F rfl with rfl | rfl | ⟨vals, rfl⟩
        · exact setWritten_nil
        · exact setWritten_nil
        · exact setWritten_built vals
      rw [accepts_some_of_setWritten F hw A]
      simp only [Option.some.injEq, decide_eq_false_iff_not, not_or]
      constructor
      · intro h
        exact ⟨F, rfl, h⟩
      · rintro ⟨G, hG, h⟩
        cases hG
        exact h

/-- C1 at the filter built by `Set("go,python")` and an advisory tagged `go`. -/
theorem accepts_iff_witness :
    accepts (some (SetAll none ["go,python"])) (some ⟨"go", ""⟩) = some true ∧
    accepts (some (SetAll none ["go,python"])) (some ⟨"ruby", ""⟩) = some false :=
  have h := accepts_iff (some (SetAll none ["go,python"]))
  have hF : ∀ F, some (SetAll none ["go,python"]) = some F →
      F = none ∨ F = some [] ∨ ∃ vals, F = SetAll none vals :=
    fun F e => Or.inr (Or.inr ⟨["go,python"], (Option.some.inj e).symm⟩)
  ⟨(h ⟨"go", ""⟩ hF).1.2 (Or.inr ⟨_, rfl, Or.inr (Or.inr (by decide))⟩),
   (h ⟨"ruby", ""⟩ hF).2.1.2 ⟨_, rfl, by decide, by decide⟩⟩

/-- C6: `Set(val)` returns no error, and afterwards the keys of the filter are the
keys it had before together with the non-empty tokens of `val` split on commas; the
same holds of the keys whose value is `true`.  Empty tokens add nothing and no key
is lost. -/
theorem Set_members (F : languageFilter) (val : String) :
    (Set F val).2 = none ∧
    (∀ k, k ∈ (Set F val).1.keys ↔ k ∈ F.keys ∨ (k ∈ Split val ∧ k ≠ "")) ∧
    (∀ k, (Set F val).1.index false k = true ↔
      F.index false k = true ∨ (k ∈ Split val ∧ k ≠ "")) :=
  ⟨Set_err F val, mem_keys_Set F val, index_Set F val⟩

/-- C8: `Set("")` returns no error and leaves the filter as it was: a nil filter
stays nil, an allocated one keeps its entries, and `accepts` answers as before. -/
theorem Set_empty (F : languageFilter) :
    Set F "" = (F, none) ∧ (Set none "").1 = none ∧
    (∀ adv, accepts (some (Set F "").1) adv = accepts (some F) adv) := by
  have h : Set F "" = (F, none) := by
    unfold Snyk2nvd.Set
    rw [if_pos rfl]
  refine ⟨h, ?_, ?_⟩
  · unfold Snyk2nvd.Set
    rw [if_pos rfl]
  · intro adv
    rw [h]

/-- C7: `Set` is additive.  From any filter, `Set(x)` then `Set(y)` gives a filter
with the same keys as the one call `Set(x + "," + y)` and as `Set(y)` then `Set(x)`,
and `accepts` answers the same on all three for every advisory; two arguments whose
tokens are the same up to order give filters on which `accepts` answers the same. -/
theorem Set_additive (F : languageFilter) (x y : String) :
    (∀ adv, accepts (some (Set (Set F x).1 y).1) adv =
      accepts (some (Set F (x ++ "," ++ y)).1) adv) ∧
    (∀ adv, accepts (some (Set (Set F x).1 y).1) adv =
      accepts (some (Set (Set F y).1 x).1) adv) ∧
    (∀ k, k ∈ (Set (Set F x).1 y).1.keys ↔ k ∈ (Set F (x ++ "," ++ y)).1.keys) ∧
    (∀ k, k ∈ (Set (Set F x).1 y).1.keys ↔ k ∈ (Set (Set F y).1 x).1.keys) ∧
    (∀ v w, (Split v).Perm (Split w) →
      ∀ adv, accepts (some (Set F v).1) adv = accepts (some (Set F w).1) adv) := by
  have k1 : ∀ k, k ∈ (Set (Set F x).1 y).1.keys ↔ k ∈ (Set F (x ++ "," ++ y)).1.keys := by
    intro k
    simp only [mem_keys_Set, Split_append_comma, List.mem_append]
    tauto
  have k2 : ∀ k, k ∈ (Set (Set F x).1 y).1.keys ↔ k ∈ (Set (Set F y).1 x).1.keys := by
    intro k
    simp only [mem_keys_Set]
    tauto
  have i1 : ∀ k, (Set (Set F x).1 y).1.index false k = true ↔
      (Set F (x ++ "," ++ y)).1.index false k = true := by
    intro k
    simp only [index_Set, Split_append_comma, List.mem_append]
    tauto
  have i2 : ∀ k, (Set (Set F x).1 y).1.index false k = true ↔
      (Set (Set F y).1 x).1.index false k = true := by
    intro k
    simp only [index_Set]
    tauto
  refine ⟨accepts_congr _ _ k1 i1, accepts_congr _ _ k2 i2, k1, k2, ?_⟩
  intro v w hvw
  refine accepts_congr _ _ ?_ ?_
  · intro k
    simp only [mem_keys_Set, hvw.mem_iff]
  · intro k
    simp only [index_Set, hvw.mem_iff]

/-- C7 at the arguments `a,b,c` and `c,a,b`, from the nil filter, for an advisory
tagged `b`. -/
theorem Set_additive_witness :
    (Split "a,b,c").Perm (Split "c,a,b") ∧
    accepts (some (Set none "a,b,c").1) (some ⟨"b", ""⟩) =
      accepts (some (Set none "c,a,b").1) (some ⟨"b", ""⟩) :=
  have hp : (Split "a,b,c").Perm (Split "c,a,b") := by decide
  ⟨hp, (Set_additive none "" "").2.2.2.2 "a,b,c" "c,a,b" hp (some ⟨"b", ""⟩)⟩

/-! ## The language filter: `String` -/

theorem filter_nonempty_of_forall_ne (l : List String) (h : ∀ t ∈ l, t ≠ "") :
    l.filter (fun t => decide (t ≠ "")) = l := by
  rw [List.filter_eq_self]
  intro t ht
  simpa using h t ht

/-- C9: for a filter built from nil by `Set` calls and any order in which `range`
visits its entries, `String()` is the keys of the filter, each once, joined by
single commas in that order.  When the filter has keys, splitting the result on
commas gives back exactly these keys; in every case the non-empty pieces of the
split are exactly the keys.  A nil or empty filter renders as the empty string. -/
theorem String_joins (order : List (String × Bool) → List (String × Bool))
    (horder : ∀ m, (order m).Perm m) (vals : List String) :
    ∃ langs : List String,
      langs.Perm (SetAll none vals).keys ∧ langs.Nodup ∧
      languageFilter.String order (SetAll none vals) = Join langs "," ∧
      ((SetAll none vals).keys ≠ [] →
        Split (languageFilter.String order (SetAll none vals)) = langs) ∧
      (Split (languageFilter.String order (SetAll none vals))).filter
        (fun t => decide (t ≠ "")) = langs ∧
      ((SetAll none vals).keys = [] →
        languageFilter.String order (SetAll none vals) = "") ∧
      languageFilter.String order none = "" ∧
      languageFilter.String order (some []) = "" := by
  have hw := setWritten_built vals
  have hnil : order [] = [] := (horder []).eq_nil
  have hperm : ((order (SetAll none vals).entries).map Prod.fst).Perm (SetAll none vals).keys :=
    (horder _).map Prod.fst
  have htok : ∀ t ∈ (order (SetAll none vals).entries).map Prod.fst, t ≠ "" ∧ ',' ∉ t.data :=
    fun t ht => hw.tokens t (hperm.mem_iff.1 ht)
  refine ⟨(order (SetAll none vals).entries).map Prod.fst, hperm,
    hperm.nodup_iff.2 hw.nodup, rfl, ?_, ?_, ?_, ?_, ?_⟩
  · intro hne
    have hne2 : (order (SetAll none vals).entries).map Prod.fst ≠ [] :=
      fun e => hne (by rw [e] at hperm; exact hperm.symm.eq_nil)
    exact Split_Join _ hne2 (fun t ht => (htok t ht).2)
  · by_cases hne : (order (SetAll none vals).entries).map Prod.fst = []
    · simp only [languageFilter.String, hne, Join]
      decide
    · simp only [languageFilter.String]
      rw [Split_Join _ hne (fun t ht => (htok t ht).2)]
      exact filter_nonempty_of_forall_ne _ (fun t ht => (htok t ht).1)
  · intro he
    have he2 : (order (SetAll none vals).entries).map Prod.fst = [] := by
      rw [he] at hperm
      exact hperm.eq_nil
    simp [languageFilter.String, he2, Join]
  · simp [languageFilter.String, GoMap.entries, hnil, Join]
  · simp [languageFilter.String, GoMap.entries, hnil, Join]

/-- C9 at the filter built by `Set("go,python")` and `Set("ruby")`, visited in
reverse. -/
theorem String_joins_witness :
    (∀ m : List (String × Bool), (List.reverse m).Perm m) ∧
    ∃ langs : List String,
      langs.Perm (SetAll none ["go,python", "ruby"]).keys ∧ langs.Nodup ∧
      languageFilter.String List.reverse (SetAll none ["go,python", "ruby"]) =
        Join langs "," ∧
      ((SetAll none ["go,python", "ruby"]).keys ≠ [] →
        Split (languageFilter.String List.reverse (SetAll none ["go,python", "ruby"])) =
          langs) ∧
      (Split (languageFilter.String List.reverse
        (SetAll none ["go,python", "ruby"]))).filter (fun t => decide (t ≠ "")) = langs ∧
      ((SetAll none ["go,python", "ruby"]).keys = [] →
        languageFilter.String List.reverse (SetAll none ["go,python", "ruby"]) = "") ∧
      languageFilter.String List.reverse none = "" ∧
      languageFilter.String List.reverse (some []) = "" :=
  ⟨fun m => List.reverse_perm m,
   String_joins List.reverse (fun m => List.reverse_perm m) ["go,python", "ruby"]⟩

/-! ## The stream decoder -/

theorem accepts_some_some (lf : languageFilter) (a : Advisory) :
    accepts (some lf) (some a) =
      some (if lf.len = 0 then true else lf.index false a.Language) := by
  by_cases h : lf.len = 0 <;> simp [accepts, h]

theorem accepts_of_len_eq_zero (lf : languageFilter) (h : lf.len = 0)
    (adv : Option Advisory) : accepts (some lf) adv = some true := by
  simp [accepts, h]

theorem accepts_ne_none (lf : languageFilter) (adv : Option Advisory)
    (h : lf.len = 0 ∨ adv ≠ none) : accepts (some lf) adv ≠ none := by
  rcases h with h | h
  · simp [accepts_of_len_eq_zero lf h]
  · cases adv with
    | none => exact absurd rfl h
    | some a => simp [accepts_some_some]

theorem readLoop_of_no_panic (lf : languageFilter) (entries : List (String × Option Advisory))
    (sent : List (Option Advisory)) (h : ∀ p ∈ entries, accepts (some lf) p.2 ≠ none) :
    readLoop lf entries sent =
      ⟨sent ++ (entries.map Prod.snd).filter
          (fun v => decide (accepts (some lf) v = some true)),
        Completion.returned none⟩ := by
  induction entries generalizing sent with
  | nil => simp [readLoop]
  | cons p rest ih =>
    obtain ⟨k, vuln⟩ := p
    have hrest : ∀ q ∈ rest, accepts (some lf) q.2 ≠ none := fun q hq => h q (by simp [hq])
    have hv : accepts (some lf) vuln ≠ none := h (k, vuln) (by simp)
    cases hacc : accepts (some lf) vuln with
    | none => exact absurd hacc hv
    | some b =>
      cases b with
      | true => simp [readLoop, hacc, ih _ hrest]
      | false => simp [readLoop, hacc, ih _ hrest]

theorem readLoop_completion_ne_error (lf : languageFilter)
    (entries : List (String × Option Advisory)) (sent : List (Option Advisory)) (e : String) :
    (readLoop lf entries sent).completion ≠ Completion.returned (some e) := by
  induction entries generalizing sent with
  | nil => simp [readLoop]
  | cons p rest ih =>
    obtain ⟨k, vuln⟩ := p
    cases hacc : accepts (some lf) vuln with
    | none => simp [readLoop, hacc]
    | some b =>
      cases b with
      | true => simpa [readLoop, hacc] using ih _
      | false => simpa [readLoop, hacc] using ih _

theorem Read_ok_sent {R : Type} (decode : R → Except String (GoMap (Option Advisory)))
    (order : List (String × Option Advisory) → List (String × Option Advisory))
    (horder : ∀ m, (order m).Perm m) (lf : languageFilter) (r : R)
    (vulns : GoMap (Option Advisory)) (hdec : decode r = Except.ok vulns)
    (h : lf.len = 0 ∨ ∀ p ∈ vulns.entries, p.2 ≠ none) :
    Read decode order lf r =
      ⟨((order vulns.entries).map Prod.snd).filter
          (fun v => decide (accepts (some lf) v = some true)),
        Completion.returned none⟩ := by
  have hno : ∀ p ∈ order vulns.entries, accepts (some lf) p.2 ≠ none := by
    intro p hp
    rcases h with h | h
    · exact accepts_ne_none lf p.2 (Or.inl h)
    · exact accepts_ne_none lf p.2 (Or.inr (h p ((horder _).mem_iff.1 hp)))
  simp only [Read, hdec]
  rw [readLoop_of_no_panic lf _ [] hno]
  simp

theorem map_some_filter (lf : languageFilter) (advs : List Advisory) :
    (advs.map some).filter (fun v => decide (accepts (some lf) v = some true)) =
      (advs.filter (fun a => decide (accepts (some lf) (some a) = some true))).map some := by
  induction advs with
  | nil => rfl
  | cons a rest ih =>
    by_cases h : accepts (some lf) (some a) = some true <;> simp [List.filter_cons, h, ih]

/-- C2: when the stream decodes to a JSON object of advisory objects, `Read` returns
the nil error and sends exactly the decoded advisories the filter accepts, each
once, in the order `range` visits them.  With a non-empty filter these are the
advisories whose tag the filter holds, and their number is the number of matching
advisories; with a nil or empty filter all of them are sent. -/
theorem Read_emits_accepted {R : Type}
    (decode : R → Except String (GoMap (Option Advisory)))
    (order : List (String × Option Advisory) → List (String × Option Advisory))
    (horder : ∀ m, (order m).Perm m) (lf : languageFilter) (r : R)
    (objs : List (String × Advisory))
    (hdec : decode r = Except.ok (some (objs.map (fun p => (p.1, some p.2))))) :
    (Read decode order lf r).completion = Completion.returned none ∧
    (Read decode order lf r).sent.Perm
      (((objs.map Prod.snd).filter
        (fun a => decide (accepts (some lf) (some a) = some true))).map some) ∧
    (lf.len ≠ 0 →
      (Read decode order lf r).sent.Perm
        (((objs.map Prod.snd).filter (fun a => lf.index false a.Language)).map some) ∧
      (Read decode order lf r).sent.length =
        (objs.map Prod.snd).countP (fun a => lf.index false a.Language)) ∧
    (lf.len = 0 →
      (Read decode order lf r).sent.Perm ((objs.map Prod.snd).map some) ∧
      (Read decode order lf r).sent.length = objs.length) := by
  have hvals : ∀ p ∈ GoMap.entries (some (objs.map (fun p => (p.1, some p.2)))),
      p.2 ≠ none := by
    intro p hp
    simp only [GoMap.entries, Option.getD, List.mem_map] at hp
    obtain ⟨q, _, rfl⟩ := hp
    simp
  have hread := Read_ok_sent decode order horder lf r _ hdec (Or.inr hvals)
  have hmap : (GoMap.entries (some (objs.map (fun p => (p.1, some p.2))))).map Prod.snd =
      (objs.map Prod.snd).map some := by
    simp [GoMap.entries, Function.comp_def]
  have hperm : (Read decode order lf r).sent.Perm
      (((objs.map Prod.snd).filter
        (fun a => decide (accepts (some lf) (some a) = some true))).map some) := by
    rw [hread, ← map_some_filter, ← hmap]
    exact ((horder _).map Prod.snd).filter _
  refine ⟨by rw [hread], hperm, ?_, ?_⟩
  · intro hne
    have hf : (objs.map Prod.snd).filter
        (fun a => decide (accepts (some lf) (some a) = some true)) =
        (objs.map Prod.snd).filter (fun a => lf.index false a.Language) := by
      apply List.filter_congr
      intro a _
      simp [accepts_some_some, hne]
    rw [hf] at hperm
    refine ⟨hperm, ?_⟩
    rw [hperm.length_eq, List.length_map, List.countP_eq_length_filter]
  · intro h0
    have hf : (objs.map Prod.snd).filter
        (fun a => decide (accepts (some lf) (some a) = some true)) = objs.map Prod.snd := by
      rw [List.filter_eq_self]
      intro a _
      simp [accepts_some_some, h0]
    rw [hf] at hperm
    refine ⟨hperm, ?_⟩
    rw [hperm.length_eq]
    simp

/-- C2 at the object of two advisories tagged `go` and `python` with the filter built
by `Set("go")`, and at the object of one advisory with no filter set. -/
theorem Read_emits_accepted_witness :
    SampleInput.text SampleInput.twoAdvisories =
      "\x7b\"a\":\x7b\"language\":\"go\"\x7d,\"b\":\x7b\"language\":\"python\"\x7d\x7d" ∧
    (Read decodeSample id (Set none "go").1 SampleInput.twoAdvisories).completion =
      Completion.returned none ∧
    (Read decodeSample id (Set none "go").1 SampleInput.twoAdvisories).sent.Perm
      [some ⟨"go", ""⟩] ∧
    (Read decodeSample id none SampleInput.oneAdvisory).sent.length = 1 :=
  have h := Read_emits_accepted decodeSample id (fun m => List.Perm.refl m) (Set none "go").1
    SampleInput.twoAdvisories [("a", ⟨"go", ""⟩), ("b", ⟨"python", ""⟩)] rfl
  have h1 := Read_emits_accepted decodeSample id (fun m => List.Perm.refl m) none
    SampleInput.oneAdvisory [("a", ⟨"go", ""⟩)] rfl
  ⟨rfl, h.1, h.2.1, (h1.2.2.2 (by decide)).2⟩

/-- C3 fails as stated: the document `null` is not a JSON object, yet the decoder
takes it without error and leaves the nil map, so `Read` returns the nil error (and
sends nothing), whatever the filter. -/
theorem Read_null_document_returns_nil :
    SampleInput.text SampleInput.nullDocument = "null" ∧
    decodeSample SampleInput.nullDocument = Except.ok none ∧
    Read decodeSample id (Set none "go").1 SampleInput.nullDocument =
      ⟨[], Completion.returned none⟩ ∧
    Read decodeSample id none SampleInput.nullDocument = ⟨[], Completion.returned none⟩ :=
  ⟨rfl, rfl, by decide, by decide⟩

/-- C3 as amended: when the decoder reports an error, `Read` returns a non-nil error
carrying the decoder's text and sends nothing; `Read` returns a non-nil error
exactly when the decoder reports one, and a call that returns a non-nil error has
sent nothing, the decode being over before the loop starts.  A stream the decoder
takes although it holds no object, leaving the nil map, gives the nil error and
nothing sent. -/
theorem Read_decode_error {R : Type} (decode : R → Except String (GoMap (Option Advisory)))
    (order : List (String × Option Advisory) → List (String × Option Advisory))
    (horder : ∀ m, (order m).Perm m) (lf : languageFilter) (r : R) :
    (∀ err, decode r = Except.error err →
      Read decode order lf r =
        ⟨[], Completion.returned (some ("can't decode into vulns: " ++ err))⟩) ∧
    ((∃ e, (Read decode order lf r).completion = Completion.returned (some e)) ↔
      ∃ err, decode r = Except.error err) ∧
    (∀ r' e, (Read decode order lf r').completion = Completion.returned (some e) →
      (Read decode order lf r').sent = []) ∧
    (decode r = Except.ok none → Read decode order lf r = ⟨[], Completion.returned none⟩) := by
  have hnil : order [] = [] := (horder []).eq_nil
  have hsent : ∀ r' e, (Read decode order lf r').completion = Completion.returned (some e) →
      (Read decode order lf r').sent = [] := by
    intro r' e he
    unfold Read at he ⊢
    cases hd : decode r' with
    | error err' => simp
    | ok vulns =>
      rw [hd] at he
      exact absurd he (readLoop_completion_ne_error lf _ [] e)
  refine ⟨fun err hdec => by simp [Read, hdec], ?_, hsent, ?_⟩
  · constructor
    · rintro ⟨e, he⟩
      unfold Read at he
      cases hd : decode r with
      | error err' => exact ⟨err', rfl⟩
      | ok vulns =>
        rw [hd] at he
        exact absurd he (readLoop_completion_ne_error lf _ [] e)
    · rintro ⟨err, hdec⟩
      exact ⟨"can't decode into vulns: " ++ err, by simp [Read, hdec]⟩
  · intro hdec
    simp [Read, hdec, GoMap.entries, hnil, readLoop]

/-- C3 as amended, at the text `not-json` and at the cut-off object, with the filter
built by `Set("go")`. -/
theorem Read_decode_error_witness :
    SampleInput.text SampleInput.notJson = "not-json" ∧
    Read decodeSample id (Set none "go").1 SampleInput.notJson =
      ⟨[], Completion.returned (some
        "can't decode into vulns: invalid character 'o' in literal null (expecting 'u')")⟩ ∧
    Read decodeSample id (Set none "go").1 SampleInput.truncated =
      ⟨[], Completion.returned (some "can't decode into vulns: unexpected EOF")⟩ :=
  ⟨rfl,
   (Read_decode_error decodeSample id (fun m => List.Perm.refl m) (Set none "go").1
      SampleInput.notJson).1 _ rfl,
   (Read_decode_error decodeSample id (fun m => List.Perm.refl m) (Set none "go").1
      SampleInput.truncated).1 _ rfl⟩

/-- C10 fails as stated: with the filter built by `Set("go")`, `accepts` applied to a
nil advisory dereferences it, and `Read` on an object whose value is `null` ends in
the nil-pointer panic although the input decoded without error. -/
theorem Read_null_panics :
    SampleInput.text SampleInput.nullValue = "\x7b\"a\":null\x7d" ∧
    decodeSample SampleInput.nullValue = Except.ok (some [("a", none)]) ∧
    accepts (some (Set none "go").1) none = none ∧
    (Read decodeSample id (Set none "go").1 SampleInput.nullValue).completion =
      Completion.panicked :=
  ⟨rfl, rfl, by decide, by decide⟩

/-- C10 as amended: for an input that decodes without error, `Read` completes with
the nil error and without a nil-pointer failure whenever the filter is nil or empty
(also when decoded values are nil) or no decoded value is a nil advisory; `accepts`
reads the advisory only after it found the filter non-empty. -/
theorem Read_no_panic {R : Type} (decode : R → Except String (GoMap (Option Advisory)))
    (order : List (String × Option Advisory) → List (String × Option Advisory))
    (horder : ∀ m, (order m).Perm m) (lf : languageFilter) (r : R)
    (vulns : GoMap (Option Advisory)) (hdec : decode r = Except.ok vulns)
    (h : lf.len = 0 ∨ ∀ p ∈ vulns.entries, p.2 ≠ none) :
    (Read decode order lf r).completion = Completion.returned none ∧
    (∀ adv, lf.len = 0 ∨ adv ≠ none → accepts (some lf) adv ≠ none) := by
  refine ⟨?_, fun adv ha => accepts_ne_none lf adv ha⟩
  rw [Read_ok_sent decode order horder lf r vulns hdec h]

/-- C10 as amended, at the object whose only value is `null`, with the nil filter. -/
theorem Read_no_panic_witness :
    (Read decodeSample id none SampleInput.nullValue).completion = Completion.returned none :=
  (Read_no_panic decodeSample id (fun m => List.Perm.refl m) none SampleInput.nullValue
    (some [("a", none)]) rfl (Or.inl (by decide))).1

/-! ## The filter stage -/

theorem filterRun_add (lf : languageFilter) (a b : Nat) (t : FilterTask) :
    filterRun lf (a + b) t = filterRun lf b (filterRun lf a t) := by
  induction a generalizing t with
  | zero => simp [filterRun]
  | succ n ih =>
    rw [Nat.succ_add]
    simp only [filterRun]
    exact ih _

theorem filterRun_closed (lf : languageFilter) (n : Nat) (t : FilterTask)
    (h : t.closed = true) : filterRun lf n t = t := by
  induction n with
  | zero => rfl
  | succ n ih =>
    simp only [filterRun]
    have hs : filterStep lf t = t := by simp [filterStep, h]
    rw [hs, ih]

theorem filterStep_cons (lf : languageFilter) (v : Option Advisory)
    (rest out : List (Option Advisory)) (hv : accepts (some lf) v ≠ none) :
    filterStep lf ⟨some (v :: rest), out, false, false⟩ =
      ⟨some rest,
        out ++ [v].filter (fun v => decide (accepts (some lf) v = some true)),
        false, false⟩ := by
  cases h : accepts (some lf) v with
  | none => exact absurd h hv
  | some b => cases b <;> simp [filterStep, h]

theorem filterRun_le (lf : languageFilter) (n : Nat) (advs out : List (Option Advisory))
    (hno : ∀ v ∈ advs, accepts (some lf) v ≠ none) (hn : n ≤ advs.length) :
    filterRun lf n ⟨some advs, out, false, false⟩ =
      ⟨some (advs.drop n),
        out ++ (advs.take n).filter (fun v => decide (accepts (some lf) v = some true)),
        false, false⟩ := by
  induction n generalizing advs out with
  | zero => simp [filterRun]
  | succ n ih =>
    cases advs with
    | nil => simp at hn
    | cons v rest =>
      have hn2 : n ≤ rest.length := by simpa using hn
      have hv : accepts (some lf) v ≠ none := hno v (by simp)
      have hrest : ∀ w ∈ rest, accepts (some lf) w ≠ none := fun w hw => hno w (by simp [hw])
      simp only [filterRun]
      rw [filterStep_cons lf v rest out hv, ih rest _ hrest hn2]
      by_cases h : accepts (some lf) v = some true <;>
        simp [List.filter_cons, h]

theorem filterRun_done (lf : languageFilter) (n : Nat) (advs : List (Option Advisory))
    (hno : ∀ v ∈ advs, accepts (some lf) v ≠ none) (hn : advs.length + 1 ≤ n) :
    filterRun lf n (filter (some advs)) =
      ⟨some [], advs.filter (fun v => decide (accepts (some lf) v = some true)),
        true, false⟩ := by
  obtain ⟨k, rfl⟩ := Nat.exists_eq_add_of_le hn
  rw [filterRun_add, filterRun_add]
  simp only [filter]
  rw [filterRun_le lf advs.length advs [] hno (Nat.le_refl _)]
  simp only [List.drop_length, List.take_length, List.nil_append]
  have h1 : filterRun lf 1 ⟨some [],
      advs.filter (fun v => decide (accepts (some lf) v = some true)), false, false⟩ =
      ⟨some [], advs.filter (fun v => decide (accepts (some lf) v = some true)),
        true, false⟩ := by
    simp [filterRun, filterStep]
  rw [h1]
  exact filterRun_closed lf k _ rfl

theorem mem_filter_accepts (lf : languageFilter) (l : List (Option Advisory))
    (v : Option Advisory)
    (hv : v ∈ l.filter (fun v => decide (accepts (some lf) v = some true))) :
    accepts (some lf) v = some true := by
  simp only [List.mem_filter, decide_eq_true_eq] at hv
  exact hv.2

/-- C5 fails as stated: with the filter built by `Set("go")` and the sequence of an
advisory tagged `go`, a nil advisory and a second advisory tagged `go`, the
goroutine panics on the nil advisory at its second turn; its deferred close shuts
the output while input remains, and the second `go` advisory, which the filter
accepts, is not forwarded, neither then nor after nine turns. -/
theorem filter_nil_advisory_panics :
    accepts (some (Set none "go").1) (some ⟨"go", "3"⟩) = some true ∧
    filterRun (Set none "go").1 2 (filter (some [some ⟨"go", "1"⟩, none, some ⟨"go", "3"⟩])) =
      ⟨some [some ⟨"go", "3"⟩], [some ⟨"go", "1"⟩], true, true⟩ ∧
    filterRun (Set none "go").1 9 (filter (some [some ⟨"go", "1"⟩, none, some ⟨"go", "3"⟩])) =
      ⟨some [some ⟨"go", "3"⟩], [some ⟨"go", "1"⟩], true, true⟩ := by
  decide

/-- C5 as amended: for every filter and every finite sequence of advisory pointers
delivered on the input channel, which is then closed, provided the filter is nil or
empty or no pointer delivered is nil: the filter stage after `n` turns has consumed
the first `n` of them and sent, in their order of arrival and each once, exactly
those the filter accepts; its output is open as long as input remains, is closed by
the turn after the last one, and then carries exactly the accepted ones.  Nothing
it ever sends is rejected by the filter, and the channel `FetchSince` returns is
this stage over the channel of the API client. -/
theorem filter_forwards_accepted (lf : languageFilter) (advs : List (Option Advisory))
    (h : lf.len = 0 ∨ ∀ v ∈ advs, v ≠ none) :
    (∀ n, advs.length + 1 ≤ n →
      filterRun lf n (filter (some advs)) =
        ⟨some [], advs.filter (fun v => decide (accepts (some lf) v = some true)),
          true, false⟩) ∧
    (∀ n, n ≤ advs.length →
      filterRun lf n (filter (some advs)) =
        ⟨some (advs.drop n),
          (advs.take n).filter (fun v => decide (accepts (some lf) v = some true)),
          false, false⟩) ∧
    (∀ n, (filterRun lf n (filter (some advs))).closed = true →
      (filterRun lf n (filter (some advs))).ch = some []) ∧
    (∀ n, ∀ v ∈ (filterRun lf n (filter (some advs))).output,
      accepts (some lf) v = some true) ∧
    (advs.filter (fun v => decide (accepts (some lf) v = some true))).Sublist advs ∧
    (∀ (env : String → Option String)
      (fetchAll : Client → Int → AdvisoryChan × Option String)
      (baseURL userAgent : String) (since : Int) (err : Option String),
      Getenv env "SNYK_ID" ≠ "" → Getenv env "SNYK_READONLY_KEY" ≠ "" →
      fetchAll ⟨baseURL, userAgent, Getenv env "SNYK_ID", Getenv env "SNYK_READONLY_KEY"⟩
        since = (some advs, err) →
      (FetchSince env fetchAll baseURL userAgent since).channel =
        some (filter (some advs))) := by
  have hno : ∀ v ∈ advs, accepts (some lf) v ≠ none := by
    intro v hv
    rcases h with h | h
    · exact accepts_ne_none lf v (Or.inl h)
    · exact accepts_ne_none lf v (Or.inr (h v hv))
  have hpre : ∀ n, n ≤ advs.length →
      filterRun lf n (filter (some advs)) =
        ⟨some (advs.drop n),
          (advs.take n).filter (fun v => decide (accepts (some lf) v = some true)),
          false, false⟩ := by
    intro n hn
    simp only [filter]
    rw [filterRun_le lf n advs [] hno hn]
    simp
  refine ⟨fun n hn => filterRun_done lf n advs hno hn, hpre, ?_, ?_,
    List.filter_sublist advs, ?_⟩
  · intro n hc
    rcases Nat.lt_or_ge advs.length n with hlt | hge
    · rw [filterRun_done lf n advs hno hlt]
    · rw [hpre n hge] at hc
      simp at hc
  · intro n v hv
    rcases Nat.lt_or_ge advs.length n with hlt | hge
    · rw [filterRun_done lf n advs hno hlt] at hv
      exact mem_filter_accepts lf _ v hv
    · rw [hpre n hge] at hv
      exact mem_filter_accepts lf _ v hv
  · intro env fetchAll baseURL userAgent since err h1 h2 hf
    simp [FetchSince, h1, h2, hf]

/-- C5 as amended, at the filter built by `Set("go")` and the advisories tagged `go`,
`python`, `go`: after one turn, after four turns, and through `FetchSince`; and at
the nil filter with a nil advisory on the channel, which is forwarded. -/
theorem filter_forwards_accepted_witness :
    filterRun (Set none "go").1 1
        (filter (some [some ⟨"go", "1"⟩, some ⟨"python", "2"⟩, some ⟨"go", "3"⟩])) =
      ⟨some [some ⟨"python", "2"⟩, some ⟨"go", "3"⟩], [some ⟨"go", "1"⟩], false, false⟩ ∧
    filterRun (Set none "go").1 4
        (filter (some [some ⟨"go", "1"⟩, some ⟨"python", "2"⟩, some ⟨"go", "3"⟩])) =
      ⟨some [], [some ⟨"go", "1"⟩, some ⟨"go", "3"⟩], true, false⟩ ∧
    (FetchSince (fun _ => some "x")
        (fun _ _ => (some [some ⟨"go", "1"⟩, some ⟨"python", "2"⟩, some ⟨"go", "3"⟩], none))
        "https://data.snyk.io/api/v4" "snyk2nvd" 0).channel =
      some (filter (some [some ⟨"go", "1"⟩, some ⟨"python", "2"⟩, some ⟨"go", "3"⟩])) ∧
    filterRun none 3 (filter (some [none, some ⟨"go", "3"⟩])) =
      ⟨some [], [none, some ⟨"go", "3"⟩], true, false⟩ :=
  have h := filter_forwards_accepted (Set none "go").1
    [some ⟨"go", "1"⟩, some ⟨"python", "2"⟩, some ⟨"go", "3"⟩] (Or.inr (by decide))
  have h0 := filter_forwards_accepted none [none, some ⟨"go", "3"⟩] (Or.inl rfl)
  ⟨h.2.1 1 (by decide), h.1 4 (by decide),
   h.2.2.2.2.2 (fun _ => some "x") (fun _ _ => (_, none)) _ _ 0 none
     (by decide) (by decide) rfl,
   h0.1 3 (by decide)⟩

/-! ## The fetch adapter -/

/-- C4: if `SNYK_ID` is unset or empty, `FetchSince` returns the nil channel and the
error naming `SNYK_ID` and makes no call into the API package; if `SNYK_ID` is set
and `SNYK_READONLY_KEY` is unset or empty, it returns the nil channel and the error
naming `SNYK_READONLY_KEY`, again without a call.  The client is made and
`FetchAllVulnerabilities` called exactly when both values are non-empty, and then
with these values. -/
theorem FetchSince_requires_env (env : String → Option String)
    (fetchAll : Client → Int → AdvisoryChan × Option String)
    (baseURL userAgent : String) (since : Int) :
    (env "SNYK_ID" = none ∨ env "SNYK_ID" = some "" →
      FetchSince env fetchAll baseURL userAgent since =
        ⟨none, some "Please set SNYK_ID in environment", []⟩) ∧
    (Getenv env "SNYK_ID" ≠ "" →
      env "SNYK_READONLY_KEY" = none ∨ env "SNYK_READONLY_KEY" = some "" →
      FetchSince env fetchAll baseURL userAgent since =
        ⟨none, some "Please set SNYK_READONLY_KEY in environment", []⟩) ∧
    ((FetchSince env fetchAll baseURL userAgent since).calls ≠ [] ↔
      Getenv env "SNYK_ID" ≠ "" ∧ Getenv env "SNYK_READONLY_KEY" ≠ "") ∧
    (Getenv env "SNYK_ID" ≠ "" → Getenv env "SNYK_READONLY_KEY" ≠ "" →
      (FetchSince env fetchAll baseURL userAgent since).calls =
        [ApiCall.NewClient baseURL userAgent (Getenv env "SNYK_ID")
            (Getenv env "SNYK_READONLY_KEY"),
          ApiCall.FetchAllVulnerabilities
            ⟨baseURL, userAgent, Getenv env "SNYK_ID", Getenv env "SNYK_READONLY_KEY"⟩
            since]) := by
  refine ⟨?_, ?_, ?_, ?_⟩
  · intro h
    have hid : Getenv env "SNYK_ID" = "" := by
      rcases h with h | h <;> simp [Getenv, h]
    simp [FetchSince, hid]
  · intro hid h
    have hkey : Getenv env "SNYK_READONLY_KEY" = "" := by
      rcases h with h | h <;> simp [Getenv, h]
    simp [FetchSince, hid, hkey]
  · by_cases hid : Getenv env "SNYK_ID" = ""
    · simp [FetchSince, hid]
    · by_cases hkey : Getenv env "SNYK_READONLY_KEY" = ""
      · simp [FetchSince, hid, hkey]
      · simp [FetchSince, hid, hkey]
  · intro hid hkey
    simp [FetchSince, hid, hkey]

/-- C4 at an environment that sets only `SNYK_ID`, and at the empty environment. -/
theorem FetchSince_requires_env_witness :
    FetchSince (fun k => if k = "SNYK_ID" then some "id" else none) (fun _ _ => (none, none))
        "https://data.snyk.io/api/v4" "snyk2nvd" 0 =
      ⟨none, some "Please set SNYK_READONLY_KEY in environment", []⟩ ∧
    FetchSince (fun _ => none) (fun _ _ => (none, none))
        "https://data.snyk.io/api/v4" "snyk2nvd" 0 =
      ⟨none, some "Please set SNYK_ID in environment", []⟩ :=
  ⟨(FetchSince_requires_env (fun k => if k = "SNYK_ID" then some "id" else none)
      (fun _ _ => (none, none)) "https://data.snyk.io/api/v4" "snyk2nvd" 0).2.1
      (by decide) (Or.inl (by decide)),
   (FetchSince_requires_env (fun _ => none) (fun _ _ => (none, none))
      "https://data.snyk.io/api/v4" "snyk2nvd" 0).1 (Or.inl rfl)⟩

end Snyk2nvd
